import Mathlib

/-!
Verification of the price-index computation engine:
base-date resolution, the Cavallo and Tmall index calculations
(`src/analysis/price_index_python.py`), the merge/persist step
(`save_indices`, `src/storage/localdatasave.py`) and the insert path
(`src/storage/clickhouse_connector.py`).

Dates and identifiers are modelled as naturals, prices and index values as
exact rationals (reals where the computation goes through `log`/`exp`).
Python dicts built from query result lists are modelled as association lists
with last-binding-wins lookup and first-occurrence key order.
-/

namespace PriceIndex

/-- A row of the `daily_prices` fact table: (date, product_id, category_id, price). -/
structure PriceFact where
  date : ℕ
  productId : ℕ
  categoryId : ℕ
  price : ℚ
deriving DecidableEq

/-- Lookup in a Python dict built from a list of key/value pairs
(`dict(result)`): the last binding of a key wins. Models `d[k]` / `d.get(k)`. -/
def dictGet (l : List (ℕ × ℚ)) (k : ℕ) : Option ℚ :=
  (l.reverse.find? (fun p => p.1 == k)).map Prod.snd

/-- Models `d.get(k, 0)` on a weight dictionary. -/
def weightsLookup (ws : List (ℕ × ℚ)) (c : ℕ) : ℚ :=
  (dictGet ws c).getD 0

/-- Keys of a Python dict in insertion order: `acc` extended with the
first occurrence of each element of `ds`. -/
def mergeKeys (acc : List ℕ) (ds : List ℕ) : List ℕ :=
  ds.foldl (fun a d => if d ∈ a then a else a ++ [d]) acc

/-- First-occurrence deduplication: the key sequence of a dict built by
inserting `l` in order. -/
def dedupFirst (l : List ℕ) : List ℕ :=
  mergeKeys [] l

/-- One engine output record `{'date': d, '<kind>_index': v, 'base_date': b}`
(also used for the rows fed to the merge step). -/
structure EngineRecord where
  date : ℕ
  value : ℚ
  baseDate : ℕ
deriving DecidableEq

/-- A value of the `combined` dict in `save_indices` /
`save_indices_to_local_file`: the `date` and `base_date` fields set at
creation plus the index fields set so far. -/
structure CombinedEntry where
  date : ℕ
  baseDate : ℕ
  cavallo : Option ℚ
  tmall : Option ℚ
deriving DecidableEq

/-- Shared body of the two merge loops: if no row for `date` exists, create it
(initializing `date` and `base_date` from the record being processed), then
set the corresponding index field via `upd`. -/
def updateCombined (m : List (ℕ × CombinedEntry)) (date baseDate : ℕ)
    (upd : CombinedEntry → CombinedEntry) : List (ℕ × CombinedEntry) :=
  let m' := if m.any (fun p => p.1 == date) then m
            else m ++ [(date, ⟨date, baseDate, none, none⟩)]
  m'.map (fun p => if p.1 == date then (p.1, upd p.2) else p)

/-- First merge loop: `combined[date]['cavallo_index'] = idx['cavallo_index']`. -/
def addCavallo (m : List (ℕ × CombinedEntry)) (r : EngineRecord) :
    List (ℕ × CombinedEntry) :=
  updateCombined m r.date r.baseDate (fun e => { e with cavallo := some r.value })

/-- Second merge loop: `combined[date]['tmall_index'] = idx['tmall_index']`. -/
def addTmall (m : List (ℕ × CombinedEntry)) (r : EngineRecord) :
    List (ℕ × CombinedEntry) :=
  updateCombined m r.date r.baseDate (fun e => { e with tmall := some r.value })

/-- The `combined` dict after both merge loops, as an insertion-ordered
association list keyed by date. -/
def combineIndices (cav tm : List EngineRecord) : List (ℕ × CombinedEntry) :=
  tm.foldl addTmall (cav.foldl addCavallo [])

/-- The tuples `save_indices` prepares for insertion:
`(date, cavallo_index or None, tmall_index or None, base_date)`.
A field never set in the combined entry yields Python `None` (modelled
`none`), per `values.get(...) if ... is not None else None`. -/
def saveIndicesData (cav tm : List EngineRecord) :
    List (ℕ × Option ℚ × Option ℚ × ℕ) :=
  (combineIndices cav tm).map (fun p => (p.2.date, p.2.cavallo, p.2.tmall, p.2.baseDate))

/-- A row written by `save_indices_to_local_file`: absent index fields
default to `0.0` via `vals.get(field, 0.0)`. -/
structure LocalRow where
  date : ℕ
  cavallo_index : ℚ
  tmall_index : ℚ
  base_date : ℕ
deriving DecidableEq

/-- The records `save_indices_to_local_file` writes to CSV. -/
def saveLocalRecords (cav tm : List EngineRecord) : List LocalRow :=
  (combineIndices cav tm).map (fun p =>
    ⟨p.2.date, (p.2.cavallo).getD 0, (p.2.tmall).getD 0, p.2.baseDate⟩)

/-- Chunking loop, structurally recursive on a fuel argument so that it
evaluates by kernel reduction; the fuel is the list length, which suffices
for any positive chunk size. -/
def chunksOfAux {α : Type} (n : ℕ) : ℕ → List α → List (List α)
  | _, [] => []
  | 0, _ :: _ => []
  | fuel + 1, a :: l => ((a :: l).take n) :: chunksOfAux n fuel ((a :: l).drop n)

/-- Chunks of size `n` of a list, as produced by `range(0, len(l), n)`
slicing (the code only uses the positive batch sizes 1000 and 50000). -/
def chunksOf {α : Type} (n : ℕ) (l : List α) : List (List α) :=
  chunksOfAux n l.length l

/-- `ClickHouseConnector.insert_data`: empty data is skipped entirely;
otherwise the rows are appended to the table in batches of 50000. -/
def insert_data {α : Type} (table : List α) (data : List α) : List α :=
  match data with
  | [] => table
  | _ :: _ => (chunksOf 50000 data).foldl (fun t b => t ++ b) table

/-- Effect of `save_indices` on the stored `price_indices` table:
the insert is issued only when the combined data list is nonempty. -/
def save_indices (cav tm : List EngineRecord)
    (table : List (ℕ × Option ℚ × Option ℚ × ℕ)) :
    List (ℕ × Option ℚ × Option ℚ × ℕ) :=
  let data := saveIndicesData cav tm
  if data = [] then table else insert_data table data

/-- `_determine_base_date`: returns the specified date when given, else the
first cell of the `SELECT min(date)` result, else Python `None`
(`result[0][0] if result else None`); it raises nothing. -/
def determine_base_date (specified : Option ℕ) (minDateResult : List ℕ) :
    Except String (Option ℕ) :=
  match specified with
  | some d => Except.ok (some d)
  | none =>
    match minDateResult with
    | [] => Except.ok none
    | d :: _ => Except.ok (some d)

/-- `_get_category_averages(date)`:
`SELECT category_id, avg(price) FROM daily_prices WHERE date = d GROUP BY category_id`,
as the items of the resulting dict (one pair per distinct category). -/
def categoryAverages (facts : List PriceFact) (d : ℕ) : List (ℕ × ℚ) :=
  let rows := facts.filter (fun f => f.date == d)
  (dedupFirst (rows.map (fun f => f.categoryId))).map (fun c =>
    let ps := (rows.filter (fun f => f.categoryId == c)).map (fun f => f.price)
    (c, ps.sum / ps.length))

/-- `_get_all_dates()`: `SELECT DISTINCT date FROM daily_prices ORDER BY date`. -/
def allDates (facts : List PriceFact) : List ℕ :=
  (dedupFirst (facts.map (fun f => f.date))).insertionSort (· ≤ ·)

/-- Python `round(x, 4)` on an exact rational. Ties are rounded up here
(half-to-even only differs on exact midpoints, which none of the proved
properties depend on). -/
def round4q (x : ℚ) : ℚ :=
  ((round (x * 10000) : ℤ) : ℚ) / 10000

/-- The per-date accumulation loop of `calculate_tmall_index`: fold over the
items of the current averages dict; a category qualifies when it is present
in the base averages with value greater than 0. -/
def tmallAccum (ws baseAvg curr : List (ℕ × ℚ)) : ℚ × ℚ :=
  curr.foldl (fun acc item =>
    match dictGet baseAvg item.1 with
    | some b =>
        if 0 < b then
          (acc.1 + item.2 / b * weightsLookup ws item.1, acc.2 + weightsLookup ws item.1)
        else acc
    | none => acc) (0, 0)

/-- Contribution of one current-averages item to `(weighted_sum, total_weight)`. -/
def tmallContrib (ws baseAvg : List (ℕ × ℚ)) (item : ℕ × ℚ) : ℚ × ℚ :=
  match dictGet baseAvg item.1 with
  | some b =>
      if 0 < b then (item.2 / b * weightsLookup ws item.1, weightsLookup ws item.1)
      else (0, 0)
  | none => (0, 0)

/-- `calculate_tmall_index`: empty weights or empty base averages abort (the
raised `ValueError` is caught and yields `[]`); otherwise one record per date
with averages, index `(weighted_sum/total_weight)*100` when `total_weight > 0`
and `0` otherwise, rounded to 4 digits. -/
def calculate_tmall_index (ws : List (ℕ × ℚ)) (facts : List PriceFact)
    (baseDate : ℕ) : List EngineRecord :=
  if ws = [] then []
  else
    let baseAvg := categoryAverages facts baseDate
    if baseAvg = [] then []
    else
      (allDates facts).filterMap (fun d =>
        let curr := categoryAverages facts d
        if curr = [] then none
        else
          let acc := tmallAccum ws baseAvg curr
          some ⟨d, round4q (if 0 < acc.2 then acc.1 / acc.2 * 100 else 0), baseDate⟩)

/-- A record emitted by `calculate_cavallo_index`
(`{'date', 'cavallo_index', 'base_date'}`); the index value lives in ℝ
because the computation goes through `log` and `exp`. -/
structure CavRec where
  date : ℕ
  value : ℝ
  baseDate : ℕ

/-- Python `round(x, 4)` on a real index value; same tie convention
as `round4q`. -/
noncomputable def round4 (x : ℝ) : ℝ :=
  ((round (x * 10000) : ℤ) : ℝ) / 10000

/-- `log(price / base_price)` for one joined row. -/
noncomputable def logRatio (p b : ℚ) : ℝ :=
  Real.log ((p : ℝ) / (b : ℝ))

/-- `_get_base_prices(base_date)` before the `dict(...)` conversion:
`SELECT product_id, price FROM daily_prices WHERE date = base_date`. -/
def basePairs (facts : List PriceFact) (baseDate : ℕ) : List (ℕ × ℚ) :=
  (facts.filter (fun f => f.date == baseDate)).map (fun f => (f.productId, f.price))

/-- The concatenation of the batched price queries
(`WHERE product_id IN batch` for each chunk of 1000 product ids). -/
def batchedRows (facts : List PriceFact) (pids : List ℕ) : List PriceFact :=
  (chunksOf 1000 pids).flatMap (fun c => facts.filter (fun f => decide (f.productId ∈ c)))

/-- The single unrestricted query over the whole product set, for comparison
with `batchedRows` (refinement claim). -/
def unbatchedRows (facts : List PriceFact) (pids : List ℕ) : List PriceFact :=
  facts.filter (fun f => decide (f.productId ∈ pids))

/-- Step 3 of `calculate_cavallo_index`, first half: the inner merge of the
fetched price rows with the base-price dict (`df.merge(base_df, on='product_id',
how='inner')`). -/
def joinedRows (bp : List (ℕ × ℚ)) (rows : List PriceFact) : List (PriceFact × ℚ) :=
  rows.filterMap (fun r => (dictGet bp r.productId).map (fun b => (r, b)))

/-- Step 3, second half: discard rows with non-positive price or base price
(`df[(df['price'] > 0) & (df['base_price'] > 0)]`). -/
def survivingRows (bp : List (ℕ × ℚ)) (rows : List PriceFact) : List (PriceFact × ℚ) :=
  (joinedRows bp rows).filter (fun rb => decide (0 < rb.1.price ∧ 0 < rb.2))

/-- Steps 4 and 5 of `calculate_cavallo_index` on fetched data: group the
surviving rows by date (pandas sorts group keys ascending), average the log
ratios per date, exponentiate, scale by 100 and round to 4 digits. -/
noncomputable def cavalloFromRows (bp : List (ℕ × ℚ)) (rows : List PriceFact)
    (baseDate : ℕ) : List CavRec :=
  let surviving := survivingRows bp rows
  let dates := (dedupFirst (surviving.map (fun rb => rb.1.date))).insertionSort (· ≤ ·)
  dates.map (fun d =>
    let grp := surviving.filter (fun rb => rb.1.date == d)
    ⟨d, round4 (Real.exp ((grp.map (fun rb => logRatio rb.1.price rb.2)).sum / grp.length) * 100),
     baseDate⟩)

/-- The fact source as seen by `calculate_cavallo_index`: the base-price query
and the per-batch price query, each of which may fail (a raised driver error,
modelled as `Except.error ()`). -/
structure CavalloSource where
  basePricesQ : Except Unit (List (ℕ × ℚ))
  priceBatchQ : List ℕ → Except Unit (List PriceFact)

/-- The batched fetch loop of `calculate_cavallo_index`
(`all_price_rows.extend(rows)` per chunk); a failing batch query propagates
its error out of the loop. -/
def fetchBatches (src : CavalloSource) (acc : List PriceFact) :
    List (List ℕ) → Except Unit (List PriceFact)
  | [] => Except.ok acc
  | c :: cs =>
    match src.priceBatchQ c with
    | Except.error e => Except.error e
    | Except.ok rows => fetchBatches src (acc ++ rows) cs

/-- `calculate_cavallo_index` with the surrounding `try/except`: any raised
error — a failed query, no base prices, no price rows — yields `[]`. -/
noncomputable def calculate_cavallo_index_safe (src : CavalloSource)
    (baseDate : ℕ) : List CavRec :=
  match src.basePricesQ with
  | Except.error _ => []
  | Except.ok bp =>
    if bp = [] then []
    else
      match fetchBatches src [] (chunksOf 1000 (dedupFirst (bp.map Prod.fst))) with
      | Except.error _ => []
      | Except.ok rows => if rows = [] then [] else cavalloFromRows bp rows baseDate

/-- A source that never fails and answers from `facts` (the queries of
`_get_base_prices` and the batched `IN` query, evaluated on the table). -/
def honestSource (facts : List PriceFact) (baseDate : ℕ) : CavalloSource :=
  ⟨Except.ok (basePairs facts baseDate),
   fun c => Except.ok (facts.filter (fun f => decide (f.productId ∈ c)))⟩

/-- `calculate_cavallo_index` against an error-free fact source. -/
noncomputable def calculate_cavallo_index (facts : List PriceFact)
    (baseDate : ℕ) : List CavRec :=
  calculate_cavallo_index_safe (honestSource facts baseDate) baseDate

/-! ### Helper lemmas on dict lookup -/

theorem dictGet_mem {l : List (ℕ × ℚ)} {k : ℕ} {v : ℚ}
    (h : dictGet l k = some v) : (k, v) ∈ l := by
  unfold dictGet at h
  rcases Option.map_eq_some'.mp h with ⟨p, hfind, hv⟩
  have hpk : p.1 = k := by simpa using List.find?_some hfind
  have hpl : p ∈ l := List.mem_reverse.mp (List.mem_of_find?_eq_some hfind)
  have hpe : p = (k, v) := by
    cases p
    cases hpk
    cases hv
    rfl
  exact hpe ▸ hpl

theorem dictGet_isSome_of_mem {l : List (ℕ × ℚ)} {k : ℕ} {v : ℚ}
    (h : (k, v) ∈ l) : ∃ w, dictGet l k = some w := by
  have hs : (l.reverse.find? (fun p => p.1 == k)).isSome :=
    List.find?_isSome.mpr ⟨(k, v), List.mem_reverse.mpr h, by simp⟩
  rcases Option.isSome_iff_exists.mp hs with ⟨p, hp⟩
  exact ⟨p.2, by simp [dictGet, hp]⟩

theorem dictGet_eq_of_nodup {l : List (ℕ × ℚ)} {k : ℕ} {v : ℚ}
    (hnd : (l.map Prod.fst).Nodup) (h : (k, v) ∈ l) : dictGet l k = some v := by
  rcases dictGet_isSome_of_mem h with ⟨w, hw⟩
  have hmem : (k, w) ∈ l := dictGet_mem hw
  have heq : (k, w) = (k, v) := List.inj_on_of_nodup_map hnd hmem h rfl
  have hwv : w = v := by injection heq
  rw [hw, hwv]

theorem weightsLookup_nonneg {ws : List (ℕ × ℚ)} (h : ∀ p ∈ ws, 0 ≤ p.2) (c : ℕ) :
    0 ≤ weightsLookup ws c := by
  unfold weightsLookup
  cases hg : dictGet ws c with
  | none => simp
  | some w => simpa using h _ (dictGet_mem hg)

/-! ### Helper lemmas on dict key order -/

theorem mem_mergeKeys {a : ℕ} :
    ∀ (ds acc : List ℕ), a ∈ mergeKeys acc ds ↔ a ∈ acc ∨ a ∈ ds := by
  intro ds
  induction ds with
  | nil => intro acc; simp [mergeKeys]
  | cons d ds ih =>
    intro acc
    show a ∈ mergeKeys (if d ∈ acc then acc else acc ++ [d]) ds ↔ _
    rw [ih]
    by_cases hd : d ∈ acc
    · simp only [if_pos hd, List.mem_cons]
      constructor
      · rintro (h | h) <;> tauto
      · rintro (h | h | h)
        · tauto
        · exact Or.inl (h ▸ hd)
        · tauto
    · simp only [if_neg hd, List.mem_append, List.mem_singleton, List.mem_cons]
      tauto

theorem mem_dedupFirst {a : ℕ} {l : List ℕ} : a ∈ dedupFirst l ↔ a ∈ l := by
  rw [dedupFirst, mem_mergeKeys]
  simp

theorem nodup_mergeKeys :
    ∀ (ds acc : List ℕ), acc.Nodup → (mergeKeys acc ds).Nodup := by
  intro ds
  induction ds with
  | nil => intro acc h; simpa [mergeKeys] using h
  | cons d ds ih =>
    intro acc hacc
    show (mergeKeys (if d ∈ acc then acc else acc ++ [d]) ds).Nodup
    by_cases hd : d ∈ acc
    · rw [if_pos hd]; exact ih acc hacc
    · rw [if_neg hd]
      refine ih _ ?_
      simpa [List.nodup_append] using ⟨hacc, hd⟩

theorem nodup_dedupFirst (l : List ℕ) : (dedupFirst l).Nodup :=
  nodup_mergeKeys l [] List.nodup_nil

theorem mergeKeys_append (acc xs ys : List ℕ) :
    mergeKeys acc (xs ++ ys) = mergeKeys (mergeKeys acc xs) ys := by
  simp [mergeKeys, List.foldl_append]

/-! ### Key order of the merge step -/

theorem map_fst_updateCombined (m : List (ℕ × CombinedEntry)) (d b : ℕ)
    (upd : CombinedEntry → CombinedEntry) :
    (updateCombined m d b upd).map Prod.fst
      = if d ∈ m.map Prod.fst then m.map Prod.fst else m.map Prod.fst ++ [d] := by
  unfold updateCombined
  have hfst : ∀ p : ℕ × CombinedEntry,
      ((fun p => if p.1 == d then (p.1, upd p.2) else p) p).1 = p.1 := by
    intro p
    by_cases h : p.1 == d <;> simp [h]
  by_cases hd : d ∈ m.map Prod.fst
  · have hany : m.any (fun p => p.1 == d) = true := by
      rcases List.mem_map.mp hd with ⟨p, hp, hpd⟩
      exact List.any_eq_true.mpr ⟨p, hp, by simp [hpd]⟩
    simp only [hany, if_true, if_pos hd, List.map_map]
    exact List.map_congr_left (fun p _ => hfst p)
  · have hany : m.any (fun p => p.1 == d) = false := by
      rw [List.any_eq_false]
      intro p hp
      simp only [beq_iff_eq]
      intro hpd
      exact hd (List.mem_map.mpr ⟨p, hp, hpd⟩)
    simp only [hany, Bool.false_eq_true, if_false, if_neg hd, List.map_map, List.map_append]
    congr 1
    · exact List.map_congr_left (fun p _ => hfst p)
    · simp

theorem map_fst_foldl_add
    (add : List (ℕ × CombinedEntry) → EngineRecord → List (ℕ × CombinedEntry))
    (hkeys : ∀ m r, (add m r).map Prod.fst
      = if r.date ∈ m.map Prod.fst then m.map Prod.fst else m.map Prod.fst ++ [r.date]) :
    ∀ (rs : List EngineRecord) (m : List (ℕ × CombinedEntry)),
      ((rs.foldl add m).map Prod.fst)
        = mergeKeys (m.map Prod.fst) (rs.map (fun r => r.date)) := by
  intro rs
  induction rs with
  | nil => intro m; simp [mergeKeys]
  | cons r rs ih =>
    intro m
    show ((rs.foldl add (add m r)).map Prod.fst) = _
    rw [ih (add m r), hkeys m r]
    rfl

theorem map_fst_addCavallo (m : List (ℕ × CombinedEntry)) (r : EngineRecord) :
    (addCavallo m r).map Prod.fst
      = if r.date ∈ m.map Prod.fst then m.map Prod.fst else m.map Prod.fst ++ [r.date] :=
  map_fst_updateCombined m r.date r.baseDate _

theorem map_fst_addTmall (m : List (ℕ × CombinedEntry)) (r : EngineRecord) :
    (addTmall m r).map Prod.fst
      = if r.date ∈ m.map Prod.fst then m.map Prod.fst else m.map Prod.fst ++ [r.date] :=
  map_fst_updateCombined m r.date r.baseDate _

/-! ### Category averages, dates and the Tmall accumulator -/

theorem categoryAverages_keys (facts : List PriceFact) (d : ℕ) :
    (categoryAverages facts d).map Prod.fst
      = dedupFirst ((facts.filter (fun f => f.date == d)).map (fun f => f.categoryId)) := by
  unfold categoryAverages
  rw [List.map_map]
  exact List.map_congr_left (fun c _ => rfl) |>.trans (List.map_id _)

theorem categoryAverages_keys_nodup (facts : List PriceFact) (d : ℕ) :
    ((categoryAverages facts d).map Prod.fst).Nodup := by
  rw [categoryAverages_keys]
  exact nodup_dedupFirst _

theorem mem_of_categoryAverages_ne_nil {facts : List PriceFact} {d : ℕ}
    (h : categoryAverages facts d ≠ []) : ∃ f ∈ facts, f.date = d := by
  rcases List.exists_mem_of_ne_nil _ h with ⟨q, hq⟩
  have hk : q.1 ∈ (categoryAverages facts d).map Prod.fst := List.mem_map_of_mem _ hq
  rw [categoryAverages_keys] at hk
  rcases List.mem_map.mp (mem_dedupFirst.mp hk) with ⟨f, hf, -⟩
  rcases List.mem_filter.mp hf with ⟨hfl, hfd⟩
  exact ⟨f, hfl, by simpa using hfd⟩

theorem mem_allDates {facts : List PriceFact} {d : ℕ} :
    d ∈ allDates facts ↔ ∃ f ∈ facts, f.date = d := by
  unfold allDates
  rw [List.mem_insertionSort, mem_dedupFirst]
  simp

theorem tmallAccum_loop (ws baseAvg : List (ℕ × ℚ)) :
    ∀ (curr : List (ℕ × ℚ)) (init : ℚ × ℚ),
      curr.foldl (fun acc item =>
        match dictGet baseAvg item.1 with
        | some b =>
            if 0 < b then
              (acc.1 + item.2 / b * weightsLookup ws item.1, acc.2 + weightsLookup ws item.1)
            else acc
        | none => acc) init
      = (init.1 + (curr.map (fun i => (tmallContrib ws baseAvg i).1)).sum,
         init.2 + (curr.map (fun i => (tmallContrib ws baseAvg i).2)).sum) := by
  intro curr
  induction curr with
  | nil => intro init; simp
  | cons i is ih =>
    intro init
    rw [List.foldl_cons, ih]
    unfold tmallContrib
    cases hg : dictGet baseAvg i.1 with
    | none => simp [hg, add_assoc]
    | some b =>
      by_cases hb : 0 < b
      · simp [hg, hb, add_assoc]
      · simp [hg, hb, add_assoc]

theorem tmallAccum_eq_sum (ws baseAvg curr : List (ℕ × ℚ)) :
    tmallAccum ws baseAvg curr
      = ((curr.map (fun i => (tmallContrib ws baseAvg i).1)).sum,
         (curr.map (fun i => (tmallContrib ws baseAvg i).2)).sum) := by
  unfold tmallAccum
  rw [tmallAccum_loop]
  simp

theorem round4q_zero : round4q 0 = 0 := by
  unfold round4q
  norm_num

theorem round4q_hundred : round4q 100 = 100 := by
  unfold round4q
  rw [show ((100 : ℚ) * 10000) = ((1000000 : ℤ) : ℚ) by norm_num, round_intCast]
  norm_num

/-! ### Claim theorems: merge and base-date resolution -/

/-- Claim C1 (code bug): at the failing input — no cavallo records, a single
tmall record for date 2 — `save_indices` prepares the persisted row with
`cavallo_index = None` (modelled `none`), not the 0.0 default the merge
policy requires. -/
theorem saveIndicesData_missing_field_is_none :
    saveIndicesData [] [⟨2, 50, 1⟩] = [(2, none, some 50, 1)] := by decide

/-- Claim C7 (counterexample): with cavallo records for date 2 only and tmall
records for dates 1 and 2 — each input itself ascending — the merged rows
come out in the order [2, 1], which is not ascending. -/
theorem combineIndices_not_date_sorted :
    (combineIndices [⟨2, 100, 1⟩] [⟨1, 50, 1⟩, ⟨2, 90, 1⟩]).map Prod.fst = [2, 1] ∧
    ¬ List.Sorted (· ≤ ·)
      ((combineIndices [⟨2, 100, 1⟩] [⟨1, 50, 1⟩, ⟨2, 90, 1⟩]).map Prod.fst) := by
  constructor <;> decide

/-- Claim C7 (amended): the merge emits one row per distinct date, in first
occurrence order of date across the cavallo records followed by the tmall
records (Python dict insertion order), not sorted by date. -/
theorem combineIndices_key_order (cav tm : List EngineRecord) :
    (combineIndices cav tm).map Prod.fst
      = dedupFirst (cav.map (fun r => r.date) ++ tm.map (fun r => r.date)) := by
  unfold combineIndices dedupFirst
  rw [map_fst_foldl_add addTmall map_fst_addTmall,
    map_fst_foldl_add addCavallo map_fst_addCavallo, mergeKeys_append]
  rfl

/-- Claim C10: when both input record lists are empty, the combined data list
is empty, the insert is skipped, and the stored index table is unchanged. -/
theorem save_indices_empty_no_insert :
    saveIndicesData [] [] = [] ∧
    ∀ table : List (ℕ × Option ℚ × Option ℚ × ℕ), save_indices [] [] table = table :=
  ⟨rfl, fun _ => rfl⟩

/-- Claim C5 (counterexample): with no explicit base date and an empty
min-date result, `_determine_base_date` does not fail — it returns Python
`None` (`Except.ok none`), never an error. -/
theorem determine_base_date_empty_returns_none :
    determine_base_date none [] = Except.ok none ∧
    ∀ e, determine_base_date none [] ≠ Except.error e :=
  ⟨rfl, fun _ h => Except.noConfusion h⟩

/-- Claim C5 (amended): `_determine_base_date` never raises: it returns the
explicit date when supplied, else the head of the min-date query result,
else `None`. -/
theorem determine_base_date_total (s : Option ℕ) (q : List ℕ) :
    determine_base_date s q = Except.ok (s <|> q.head?) := by
  cases s <;> cases q <;> rfl

/-! ### Claim theorems: the Tmall engine -/

/-- Claim C3: for a date whose category averages are non-empty but whose
accumulated total weight is 0, `calculate_tmall_index` emits a record for
that date with index exactly 0 (given the engine prerequisites: non-empty
weights and non-empty base averages). -/
theorem tmall_zero_weight_emits_zero (ws : List (ℕ × ℚ)) (facts : List PriceFact)
    (baseDate d : ℕ) (hws : ws ≠ [])
    (hbase : categoryAverages facts baseDate ≠ [])
    (hcurr : categoryAverages facts d ≠ [])
    (htw : (tmallAccum ws (categoryAverages facts baseDate)
      (categoryAverages facts d)).2 = 0) :
    (⟨d, 0, baseDate⟩ : EngineRecord) ∈ calculate_tmall_index ws facts baseDate := by
  simp only [calculate_tmall_index, if_neg hws, if_neg hbase]
  apply List.mem_filterMap.mpr
  refine ⟨d, mem_allDates.mpr (mem_of_categoryAverages_ne_nil hcurr), ?_⟩
  rw [if_neg hcurr, htw]
  rw [if_neg (lt_irrefl (0 : ℚ)), round4q_zero]

/-- Claim C6 (counterexample): with the single weight row (category 1, weight
0) and one base-date fact in category 1 priced 10, the claim hypotheses hold
— base averages non-empty, and every category carrying a nonzero weight
(there is none) has a positive base average — yet the record emitted for the
base date carries index 0, not 100. -/
theorem tmall_base_date_not_100 :
    (categoryAverages [⟨0, 1, 1, 10⟩] 0 ≠ []) ∧
    (∀ p ∈ [((1 : ℕ), (0 : ℚ))], p.2 ≠ 0 →
      ∃ q ∈ categoryAverages [⟨0, 1, 1, 10⟩] 0, q.1 = p.1 ∧ 0 < q.2) ∧
    calculate_tmall_index [(1, 0)] [⟨0, 1, 1, 10⟩] 0 = [⟨0, 0, 0⟩] := by
  refine ⟨by decide, ?_, ?_⟩
  · intro p hp h0
    simp only [List.mem_singleton] at hp
    simp [hp] at h0
  · simp [calculate_tmall_index, allDates, categoryAverages, dedupFirst, mergeKeys,
      tmallAccum, dictGet, weightsLookup, round4q]

/-- Claim C6 (amended): when all weights are non-negative and some category
present in the base-date averages has a positive average and a positive
looked-up weight, `calculate_tmall_index` emits a record for the base date
with index exactly 100. -/
theorem tmall_base_date_100 (ws : List (ℕ × ℚ)) (facts : List PriceFact)
    (baseDate : ℕ) (hnn : ∀ p ∈ ws, 0 ≤ p.2)
    (hex : ∃ p ∈ categoryAverages facts baseDate, 0 < p.2 ∧ 0 < weightsLookup ws p.1) :
    (⟨baseDate, 100, baseDate⟩ : EngineRecord) ∈ calculate_tmall_index ws facts baseDate := by
  obtain ⟨p0, hp0mem, hp0pos, hw0pos⟩ := hex
  have hws : ws ≠ [] := by
    rintro rfl
    simp [weightsLookup, dictGet] at hw0pos
  have hbase : categoryAverages facts baseDate ≠ [] := List.ne_nil_of_mem hp0mem
  simp only [calculate_tmall_index, if_neg hws, if_neg hbase]
  apply List.mem_filterMap.mpr
  refine ⟨baseDate, mem_allDates.mpr (mem_of_categoryAverages_ne_nil hbase), ?_⟩
  rw [if_neg hbase, tmallAccum_eq_sum]
  have hnodup := categoryAverages_keys_nodup facts baseDate
  have hterm : ∀ i ∈ categoryAverages facts baseDate,
      (tmallContrib ws (categoryAverages facts baseDate) i).1
        = (tmallContrib ws (categoryAverages facts baseDate) i).2 := by
    intro i hi
    unfold tmallContrib
    rw [dictGet_eq_of_nodup hnodup hi]
    by_cases hb : 0 < i.2
    · simp [hb, div_self (ne_of_gt hb)]
    · simp [hb]
  have hsums :
      ((categoryAverages facts baseDate).map
        (fun i => (tmallContrib ws (categoryAverages facts baseDate) i).1)).sum
      = ((categoryAverages facts baseDate).map
        (fun i => (tmallContrib ws (categoryAverages facts baseDate) i).2)).sum :=
    congrArg List.sum (List.map_congr_left hterm)
  have hnonneg : ∀ y ∈ (categoryAverages facts baseDate).map
      (fun i => (tmallContrib ws (categoryAverages facts baseDate) i).2), 0 ≤ y := by
    intro y hy
    rcases List.mem_map.mp hy with ⟨i, hi, rfl⟩
    unfold tmallContrib
    cases hg : dictGet (categoryAverages facts baseDate) i.1 with
    | none => simp
    | some b =>
      by_cases hb : 0 < b
      · simpa [hb] using weightsLookup_nonneg hnn i.1
      · simp [hb]
  have hp0term : (tmallContrib ws (categoryAverages facts baseDate) p0).2
      = weightsLookup ws p0.1 := by
    unfold tmallContrib
    rw [dictGet_eq_of_nodup hnodup hp0mem]
    simp [hp0pos]
  have hpos : 0 < ((categoryAverages facts baseDate).map
      (fun i => (tmallContrib ws (categoryAverages facts baseDate) i).2)).sum := by
    refine lt_of_lt_of_le ?_ (List.single_le_sum hnonneg _
      (List.mem_map_of_mem (fun i => (tmallContrib ws (categoryAverages facts baseDate) i).2)
        hp0mem))
    simpa [hp0term] using hw0pos
  simp only [hsums]
  rw [if_pos hpos, div_self (ne_of_gt hpos), one_mul, round4q_hundred]

/-- Witness for C3: one weight row for category 1, one fact in category 2, so
the base-date record accumulates total weight 0 and is emitted with index 0. -/
theorem tmall_zero_weight_emits_zero_witness :
    (⟨0, 0, 0⟩ : EngineRecord) ∈ calculate_tmall_index [(1, 5)] [⟨0, 1, 2, 10⟩] 0 :=
  tmall_zero_weight_emits_zero [(1, 5)] [⟨0, 1, 2, 10⟩] 0 0 (by decide) (by decide)
    (by decide)
    (by simp [tmallAccum, categoryAverages, dedupFirst, mergeKeys, dictGet, weightsLookup])

/-- Witness for C6 (amended): category 1 has weight 2 and base average 10, so
the base-date record carries index exactly 100. -/
theorem tmall_base_date_100_witness :
    (⟨0, 100, 0⟩ : EngineRecord) ∈ calculate_tmall_index [(1, 2)] [⟨0, 7, 1, 10⟩] 0 :=
  tmall_base_date_100 [(1, 2)] [⟨0, 7, 1, 10⟩] 0 (by decide)
    (by simp [categoryAverages, dedupFirst, mergeKeys, dictGet, weightsLookup])

/-! ### Batching of the price query -/

theorem filter_append_filter_perm {α : Type} (p q : α → Bool) :
    ∀ l : List α, (∀ x ∈ l, ¬(p x = true ∧ q x = true)) →
      List.Perm (l.filter p ++ l.filter q) (l.filter (fun x => p x || q x)) := by
  intro l
  induction l with
  | nil => intro _; simp
  | cons x xs ih =>
    intro h
    have hxs := fun y hy => h y (List.mem_cons_of_mem x hy)
    have hx := h x (List.mem_cons_self x xs)
    by_cases hp : p x = true
    · have hq : q x = false := by
        cases hqv : q x
        · rfl
        · exact absurd ⟨hp, hqv⟩ hx
      simp only [List.filter_cons, hp, hq, if_true, Bool.false_eq_true, if_false,
        Bool.true_or, List.cons_append]
      exact (ih hxs).cons x
    · have hp' : p x = false := Bool.eq_false_iff.mpr hp
      by_cases hq : q x = true
      · simp only [List.filter_cons, hp', hq, if_true, Bool.false_eq_true, if_false,
          Bool.false_or]
        exact List.perm_middle.trans ((ih hxs).cons x)
      · have hq' : q x = false := Bool.eq_false_iff.mpr hq
        simp only [List.filter_cons, hp', hq', Bool.false_eq_true, if_false,
          Bool.false_or]
        exact ih hxs

theorem chunksOfAux_flatten {α : Type} {n : ℕ} (hn : 0 < n) :
    ∀ (fuel : ℕ) (l : List α), l.length ≤ fuel → (chunksOfAux n fuel l).flatten = l := by
  intro fuel
  induction fuel with
  | zero =>
    intro l hlen
    have hl : l = [] := List.length_eq_zero.mp (Nat.le_antisymm hlen (Nat.zero_le _))
    subst hl
    rfl
  | succ fuel ih =>
    intro l hlen
    cases l with
    | nil => rfl
    | cons a l =>
      show ((a :: l).take n ++ ((chunksOfAux n fuel ((a :: l).drop n)).flatten)) = a :: l
      rw [ih ((a :: l).drop n)
        (by simp only [List.length_drop, List.length_cons] at hlen ⊢; omega)]
      exact List.take_append_drop n (a :: l)

theorem chunksOf_flatten {α : Type} {n : ℕ} (hn : 0 < n) (l : List α) :
    (chunksOf n l).flatten = l :=
  chunksOfAux_flatten hn l.length l (le_refl _)

theorem batchedAux_perm (facts : List PriceFact) {n : ℕ} (hn : 0 < n) :
    ∀ (fuel : ℕ) (pids : List ℕ), pids.length ≤ fuel → pids.Nodup →
      List.Perm ((chunksOfAux n fuel pids).flatMap
          (fun c => facts.filter (fun f => decide (f.productId ∈ c))))
        (facts.filter (fun f => decide (f.productId ∈ pids))) := by
  intro fuel
  induction fuel with
  | zero =>
    intro pids hlen _
    have hp : pids = [] := List.length_eq_zero.mp (Nat.le_antisymm hlen (Nat.zero_le _))
    subst hp
    simp [chunksOfAux]
  | succ fuel ih =>
    intro pids hlen hnd
    cases pids with
    | nil => simp [chunksOfAux]
    | cons a l =>
      show List.Perm
        (facts.filter (fun f => decide (f.productId ∈ (a :: l).take n)) ++
          (chunksOfAux n fuel ((a :: l).drop n)).flatMap
            (fun c => facts.filter (fun f => decide (f.productId ∈ c)))) _
      have hdlen : ((a :: l).drop n).length ≤ fuel := by
        simp only [List.length_drop, List.length_cons] at *
        omega
      have hdnd : ((a :: l).drop n).Nodup := hnd.sublist (List.drop_sublist n _)
      refine ((ih ((a :: l).drop n) hdlen hdnd).append_left _).trans ?_
      have hdisj : ∀ x ∈ facts,
          ¬(decide (x.productId ∈ (a :: l).take n) = true ∧
            decide (x.productId ∈ (a :: l).drop n) = true) := by
        intro x _ hand
        exact List.disjoint_take_drop hnd (le_refl n)
          (of_decide_eq_true hand.1) (of_decide_eq_true hand.2)
      refine (filter_append_filter_perm _ _ facts hdisj).trans ?_
      have hcongr : ∀ x ∈ facts,
          (decide (x.productId ∈ (a :: l).take n) || decide (x.productId ∈ (a :: l).drop n))
            = decide (x.productId ∈ a :: l) := by
        intro x _
        rw [← Bool.decide_or]
        apply decide_eq_decide.mpr
        conv_rhs => rw [← List.take_append_drop n (a :: l)]
        exact (List.mem_append).symm
      rw [List.filter_congr hcongr]

/-- Claim C8: for a duplicate-free product-id set, the concatenation of the
batched price queries retrieves exactly the same multiset of rows as the
single unrestricted query. -/
theorem batching_preserves_rows (facts : List PriceFact) (pids : List ℕ)
    (h : pids.Nodup) :
    (batchedRows facts pids : Multiset PriceFact)
      = (unbatchedRows facts pids : Multiset PriceFact) := by
  apply Multiset.coe_eq_coe.mpr
  unfold batchedRows unbatchedRows chunksOf
  exact batchedAux_perm facts (by norm_num) pids.length pids (le_refl _) h

/-- Witness for C8 at a concrete two-product data set. -/
theorem batching_preserves_rows_witness :
    ([1, 2] : List ℕ).Nodup ∧
    (batchedRows [⟨0, 1, 0, 10⟩, ⟨1, 2, 0, 20⟩] [1, 2] : Multiset PriceFact)
      = (unbatchedRows [⟨0, 1, 0, 10⟩, ⟨1, 2, 0, 20⟩] [1, 2] : Multiset PriceFact) :=
  ⟨by decide, batching_preserves_rows [⟨0, 1, 0, 10⟩, ⟨1, 2, 0, 20⟩] [1, 2] (by decide)⟩

/-! ### The Cavallo fetch phase -/

theorem fetchBatches_error (src : CavalloSource) :
    ∀ (chunks : List (List ℕ)) (acc : List PriceFact),
      (∃ c ∈ chunks, src.priceBatchQ c = Except.error ()) →
      fetchBatches src acc chunks = Except.error () := by
  intro chunks
  induction chunks with
  | nil =>
    intro acc h
    simp at h
  | cons c cs ih =>
    intro acc h
    show (match src.priceBatchQ c with
      | Except.error e => Except.error e
      | Except.ok rows => fetchBatches src (acc ++ rows) cs) = Except.error ()
    cases hq : src.priceBatchQ c with
    | error e =>
      cases e
      rfl
    | ok rows =>
      rcases h with ⟨c', hc', herr⟩
      rcases List.mem_cons.mp hc' with rfl | hc'
      · rw [hq] at herr
        cases herr
      · exact ih (acc ++ rows) ⟨c', hc', herr⟩

theorem fetchBatches_honest (facts : List PriceFact) (baseDate : ℕ) :
    ∀ (chunks : List (List ℕ)) (acc : List PriceFact),
      fetchBatches (honestSource facts baseDate) acc chunks
        = Except.ok (acc ++ chunks.flatMap
            (fun c => facts.filter (fun f => decide (f.productId ∈ c)))) := by
  intro chunks
  induction chunks with
  | nil => intro acc; simp [fetchBatches]
  | cons c cs ih =>
    intro acc
    show fetchBatches (honestSource facts baseDate)
      (acc ++ facts.filter (fun f => decide (f.productId ∈ c))) cs = _
    rw [ih]
    simp

theorem calculate_cavallo_index_eq (facts : List PriceFact) (baseDate : ℕ) :
    calculate_cavallo_index facts baseDate
      = if basePairs facts baseDate = [] then []
        else if batchedRows facts (dedupFirst ((basePairs facts baseDate).map Prod.fst)) = []
          then []
          else cavalloFromRows (basePairs facts baseDate)
            (batchedRows facts (dedupFirst ((basePairs facts baseDate).map Prod.fst)))
            baseDate := by
  unfold calculate_cavallo_index calculate_cavallo_index_safe
  rw [show (honestSource facts baseDate).basePricesQ
    = Except.ok (basePairs facts baseDate) from rfl]
  simp only []
  by_cases h1 : basePairs facts baseDate = []
  · simp [h1]
  · rw [if_neg h1, if_neg h1, fetchBatches_honest]
    simp only [List.nil_append]
    rfl

theorem mem_batchedRows {facts : List PriceFact} {pids : List ℕ} {f : PriceFact} :
    f ∈ batchedRows facts pids ↔ f ∈ facts ∧ f.productId ∈ pids := by
  unfold batchedRows
  rw [List.mem_flatMap]
  constructor
  · rintro ⟨c, hc, hf⟩
    rcases List.mem_filter.mp hf with ⟨hfl, hmem⟩
    refine ⟨hfl, ?_⟩
    have hfl2 : f.productId ∈ (chunksOf 1000 pids).flatten :=
      List.mem_flatten.mpr ⟨c, hc, of_decide_eq_true hmem⟩
    rwa [chunksOf_flatten (by norm_num)] at hfl2
  · rintro ⟨hfl, hpid⟩
    have hfl2 : f.productId ∈ (chunksOf 1000 pids).flatten := by
      rw [chunksOf_flatten (by norm_num)]
      exact hpid
    rcases List.mem_flatten.mp hfl2 with ⟨c, hc, hmemc⟩
    exact ⟨c, hc, List.mem_filter.mpr ⟨hfl, decide_eq_true hmemc⟩⟩

theorem mem_basePairs {facts : List PriceFact} {baseDate : ℕ} {k : ℕ} {v : ℚ} :
    (k, v) ∈ basePairs facts baseDate
      ↔ ∃ f ∈ facts, f.date = baseDate ∧ f.productId = k ∧ f.price = v := by
  unfold basePairs
  rw [List.mem_map]
  constructor
  · rintro ⟨f, hf, heq⟩
    rcases List.mem_filter.mp hf with ⟨hfl, hfd⟩
    injection heq with h1 h2
    exact ⟨f, hfl, by simpa using hfd, h1, h2⟩
  · rintro ⟨f, hfl, hd, hk, hv⟩
    exact ⟨f, List.mem_filter.mpr ⟨hfl, by simp [hd]⟩, by rw [hk, hv]⟩

theorem round4_hundred : round4 (100 : ℝ) = 100 := by
  unfold round4
  rw [show ((100 : ℝ) * 10000) = ((1000000 : ℤ) : ℝ) by norm_num, round_intCast]
  norm_num

/-! ### Claim theorems: the Cavallo engine -/

/-- Claim C4: an empty base-price set, a failed base-price query, or any
failing batched price query makes `calculate_cavallo_index` return the empty
list; the error is absorbed at the engine boundary, not propagated. -/
theorem cavallo_fail_soft (src : CavalloSource) (baseDate : ℕ)
    (h : src.basePricesQ = Except.error () ∨ src.basePricesQ = Except.ok [] ∨
      ∃ bp, src.basePricesQ = Except.ok bp ∧
        ∃ c ∈ chunksOf 1000 (dedupFirst (bp.map Prod.fst)),
          src.priceBatchQ c = Except.error ()) :
    calculate_cavallo_index_safe src baseDate = [] := by
  unfold calculate_cavallo_index_safe
  rcases h with h | h | ⟨bp, hbp, hc⟩
  · rw [h]
  · rw [h]
    simp
  · rw [hbp]
    simp only []
    by_cases hbpnil : bp = []
    · simp [hbpnil]
    · rw [if_neg hbpnil, fetchBatches_error src _ _ hc]

/-- Witness for C4: a source whose base-price query returns the empty set. -/
theorem cavallo_fail_soft_witness :
    calculate_cavallo_index_safe ⟨Except.ok [], fun _ => Except.ok []⟩ 0 = [] :=
  cavallo_fail_soft ⟨Except.ok [], fun _ => Except.ok []⟩ 0 (Or.inr (Or.inl rfl))

theorem mem_joinedRows {bp : List (ℕ × ℚ)} {rows : List PriceFact}
    {rb : PriceFact × ℚ} :
    rb ∈ joinedRows bp rows
      ↔ rb.1 ∈ rows ∧ dictGet bp rb.1.productId = some rb.2 := by
  unfold joinedRows
  rw [List.mem_filterMap]
  constructor
  · rintro ⟨r, hr, hmap⟩
    rcases Option.map_eq_some'.mp hmap with ⟨b, hb, hrb⟩
    cases hrb
    exact ⟨hr, hb⟩
  · rintro ⟨hr, hb⟩
    exact ⟨rb.1, hr, by rw [hb]; rfl⟩

theorem mem_survivingRows {bp : List (ℕ × ℚ)} {rows : List PriceFact}
    {rb : PriceFact × ℚ} :
    rb ∈ survivingRows bp rows
      ↔ (rb.1 ∈ rows ∧ dictGet bp rb.1.productId = some rb.2)
        ∧ (0 < rb.1.price ∧ 0 < rb.2) := by
  unfold survivingRows
  rw [List.mem_filter, mem_joinedRows, decide_eq_true_eq]

/-- Claim C9: every index value emitted by either engine carries at most 4
decimal digits: it is an integer multiple of 1/10000, the result of rounding
at the fourth decimal place. -/
theorem emitted_values_have_4dp (facts : List PriceFact) (baseDate : ℕ)
    (ws : List (ℕ × ℚ)) :
    ((calculate_cavallo_index facts baseDate).Forall
      (fun r => ∃ n : ℤ, r.value = (n : ℝ) / 10000)) ∧
    ((calculate_tmall_index ws facts baseDate).Forall
      (fun r => ∃ n : ℤ, r.value = (n : ℚ) / 10000)) := by
  constructor
  · rw [List.forall_iff_forall_mem]
    intro r hr
    rw [calculate_cavallo_index_eq] at hr
    split at hr
    · cases hr
    · split at hr
      · cases hr
      · simp only [cavalloFromRows] at hr
        rcases List.mem_map.mp hr with ⟨d, -, rfl⟩
        exact ⟨_, rfl⟩
  · rw [List.forall_iff_forall_mem]
    intro r hr
    simp only [calculate_tmall_index] at hr
    split at hr
    · cases hr
    · split at hr
      · cases hr
      · rcases List.mem_filterMap.mp hr with ⟨d, -, hsome⟩
        split at hsome
        · cases hsome
        · injection hsome with h
          subst h
          exact ⟨_, rfl⟩

/-- Claim C2: on a fact set with at most one price row per (date, product)
and at least one base-date row with positive price, `calculate_cavallo_index`
emits a record for the base date whose index value is exactly 100. -/
theorem cavallo_base_date_100 (facts : List PriceFact) (baseDate : ℕ)
    (hone : ∀ f ∈ facts, ∀ g ∈ facts, f.date = g.date → f.productId = g.productId → f = g)
    (hex : ∃ f ∈ facts, f.date = baseDate ∧ 0 < f.price) :
    ∃ r ∈ calculate_cavallo_index facts baseDate, r.date = baseDate ∧ r.value = 100 := by
  obtain ⟨f0, hf0, hf0d, hf0p⟩ := hex
  have hf0bp : (f0.productId, f0.price) ∈ basePairs facts baseDate :=
    mem_basePairs.mpr ⟨f0, hf0, hf0d, rfl, rfl⟩
  have hbpne : basePairs facts baseDate ≠ [] := List.ne_nil_of_mem hf0bp
  have hf0pid : f0.productId ∈ dedupFirst ((basePairs facts baseDate).map Prod.fst) :=
    mem_dedupFirst.mpr (List.mem_map_of_mem Prod.fst hf0bp)
  have hf0rows :
      f0 ∈ batchedRows facts (dedupFirst ((basePairs facts baseDate).map Prod.fst)) :=
    mem_batchedRows.mpr ⟨hf0, hf0pid⟩
  have hrowsne :
      batchedRows facts (dedupFirst ((basePairs facts baseDate).map Prod.fst)) ≠ [] :=
    List.ne_nil_of_mem hf0rows
  have hlookup : ∀ r : PriceFact, r ∈ facts → r.date = baseDate →
      dictGet (basePairs facts baseDate) r.productId = some r.price := by
    intro r hr hrd
    rcases dictGet_isSome_of_mem (mem_basePairs.mpr ⟨r, hr, hrd, rfl, rfl⟩) with ⟨w, hw⟩
    rcases mem_basePairs.mp (dictGet_mem hw) with ⟨g, hg, hgd, hgk, hgv⟩
    have hgr : g = r := hone g hg r hr (by rw [hgd, hrd]) hgk
    rw [hw, ← hgv, hgr]
  -- every surviving row dated baseDate has base price equal to its own price
  have hbasefix : ∀ rb : PriceFact × ℚ,
      rb ∈ survivingRows (basePairs facts baseDate)
        (batchedRows facts (dedupFirst ((basePairs facts baseDate).map Prod.fst))) →
      rb.1.date = baseDate → rb.2 = rb.1.price := by
    intro rb hrb hrbd
    rcases mem_survivingRows.mp hrb with ⟨⟨hrow, hget⟩, -⟩
    have hrfacts : rb.1 ∈ facts := (mem_batchedRows.mp hrow).1
    rw [hlookup rb.1 hrfacts hrbd] at hget
    exact (Option.some.inj hget).symm
  have hf0surv : (f0, f0.price) ∈ survivingRows (basePairs facts baseDate)
      (batchedRows facts (dedupFirst ((basePairs facts baseDate).map Prod.fst))) :=
    mem_survivingRows.mpr ⟨⟨hf0rows, hlookup f0 hf0 hf0d⟩, hf0p, hf0p⟩
  rw [calculate_cavallo_index_eq, if_neg hbpne, if_neg hrowsne]
  simp only [cavalloFromRows]
  refine ⟨_, List.mem_map.mpr ⟨baseDate, ?_, rfl⟩, rfl, ?_⟩
  · rw [List.mem_insertionSort, mem_dedupFirst]
    exact List.mem_map.mpr ⟨(f0, f0.price), hf0surv, hf0d⟩
  · -- the base-date group averages log 1 = 0
    have hzero : ∀ x ∈ ((survivingRows (basePairs facts baseDate)
        (batchedRows facts (dedupFirst ((basePairs facts baseDate).map Prod.fst)))).filter
          (fun rb => rb.1.date == baseDate)).map
            (fun rb => logRatio rb.1.price rb.2), x = 0 := by
      intro x hx
      rcases List.mem_map.mp hx with ⟨rb, hrb, rfl⟩
      rcases List.mem_filter.mp hrb with ⟨hrbs, hrbd⟩
      have hrbd' : rb.1.date = baseDate := by simpa using hrbd
      have hpos : 0 < rb.1.price := (mem_survivingRows.mp hrbs).2.1
      rw [hbasefix rb hrbs hrbd']
      unfold logRatio
      rw [div_self (by exact_mod_cast ne_of_gt hpos), Real.log_one]
    rw [List.sum_eq_zero hzero, zero_div, Real.exp_zero, one_mul, round4_hundred]

/-- Witness for C2: a single product priced 10 at the base date. -/
theorem cavallo_base_date_100_witness :
    ∃ r ∈ calculate_cavallo_index [⟨0, 1, 0, 10⟩] 0, r.date = 0 ∧ r.value = 100 :=
  cavallo_base_date_100 [⟨0, 1, 0, 10⟩] 0 (by decide)
    ⟨⟨0, 1, 0, 10⟩, by decide, rfl, by decide⟩

end PriceIndex
